import Mathlib

/-!
Verification of the HumGen3D haircard generation module
(`human/hair/haircards.py`) against its specification.

The Python module is shallowly embedded: numpy arrays become lists,
per-vertex data becomes functions `Nat → _`, floating point scalars become
rationals (`ℚ`), and the external numeric kernels that the module imports
(`np.linalg.norm`, `normalize` from `common.math`, the kd-tree) are passed
as explicit function parameters, exactly where the source receives them as
opaque callables.
-/

namespace HairCards

/-- 3D vector, modelling a row of a numpy `(…, 3)` float array. -/
abbrev Vec3 : Type := ℚ × ℚ × ℚ

def add3 (a b : Vec3) : Vec3 := (a.1 + b.1, a.2.1 + b.2.1, a.2.2 + b.2.2)

def sub3 (a b : Vec3) : Vec3 := (a.1 - b.1, a.2.1 - b.2.1, a.2.2 - b.2.2)

def smul3 (s : ℚ) (a : Vec3) : Vec3 := (s * a.1, s * a.2.1, s * a.2.2)

/-- Elementwise absolute value, modelling `np.abs` on a `(…, 3)` array row. -/
def abs3 (a : Vec3) : Vec3 := (|a.1|, |a.2.1|, |a.2.2|)

/-- `np.cross(a, b, axis=2)` on one pair of rows. -/
def cross3 (a b : Vec3) : Vec3 :=
  (a.2.1 * b.2.2 - a.2.2 * b.2.1,
   a.2.2 * b.1 - a.1 * b.2.2,
   a.1 * b.2.1 - a.2.1 * b.1)

def v0 : Vec3 := ((0 : ℚ), (0 : ℚ), (0 : ℚ))

/-! ## Length classification and downsampling (`create_mesh`, lines 96–114) -/

/-- `long_hairs = [hair for hair, length in self.hairs if length > 0.1]` -/
def longHairs {α : Type} (hairs : List (α × ℚ)) : List (α × ℚ) :=
  hairs.filter (fun hl => (1 / 10 : ℚ) < hl.2)

/-- `medium_hairs = [hair for hair, length in self.hairs if 0.1 >= length > 0.05]` -/
def mediumHairs {α : Type} (hairs : List (α × ℚ)) : List (α × ℚ) :=
  hairs.filter (fun hl => decide (hl.2 ≤ (1 / 10 : ℚ)) && decide ((1 / 20 : ℚ) < hl.2))

/-- `short_hairs = [hair for hair, length in self.hairs if 0.05 >= length]` -/
def shortHairs {α : Type} (hairs : List (α × ℚ)) : List (α × ℚ) :=
  hairs.filter (fun hl => hl.2 ≤ (1 / 20 : ℚ))

inductive Quality where
  | ultra | high | medium | low
deriving DecidableEq

/-- The `quality_dict` literal of `create_mesh`:
`(stride for short, stride for medium, stride for long, rdp epsilon, width scale)`. -/
def qualityDict (q : Quality) : Nat × Nat × Nat × ℚ × ℚ :=
  match q with
  | .ultra => (1, 5, 6, 2 / 1000, 1 / 2)
  | .high => (3, 6, 6, 3 / 1000, 1)
  | .medium => (6, 12, 14, 5 / 1000, 1)
  | .low => (15, 20, 20, 5 / 1000, 2)

inductive Bucket where
  | short | medium | long
deriving DecidableEq

/-- `chosen_quality[i]` for `i, hair_list in enumerate((short_hairs, medium_hairs,
long_hairs))`: index 0 is applied to the short bucket, 1 to medium, 2 to long. -/
def strideFor (q : Quality) (b : Bucket) : Nat :=
  match b with
  | .short => (qualityDict q).1
  | .medium => (qualityDict q).2.1
  | .long => (qualityDict q).2.2.1

/-- Python extended slice `l[::n]` (stride `n ≥ 1`): keep the head, then skip
`n - 1` elements, and repeat. -/
def sliceStep {α : Type} (n : Nat) : List α → List α
  | [] => []
  | x :: xs => x :: sliceStep n (xs.drop (n - 1))
termination_by l => l.length
decreasing_by simp; omega

/-- The per-bucket retention of `create_mesh`:
`if len(hair_list) > 30: all_hairs.extend(hair_list[::chosen_quality[i]])
else: all_hairs.extend(hair_list)`. -/
def retainBucket {α : Type} (stride : Nat) (hairList : List α) : List α :=
  if 30 < hairList.length then sliceStep stride hairList else hairList

/-- The bucket a length value is filtered into (derived classifier used to state
the claims; the source realises it by the three list comprehensions above). -/
def lengthClass (l : ℚ) : Bucket :=
  if (1 / 10 : ℚ) < l then .long else if (1 / 20 : ℚ) < l then .medium else .short

/-! ## Quad-strip mesh building (`_compute_new_face_vert_idxs`,
`_compute_new_ver_coordinaes`, `_calculate_segment_correction`,
`_calculate_perpendicular_vec`, and the assembly in `create_mesh`) -/

/-- `np.arange(start, stop, step)` for a positive rational step: values
`start + i * step` for `0 ≤ i < ⌈(stop - start) / step⌉`. -/
def arangeQ (start stop step : ℚ) : List ℚ :=
  (List.range (⌈(stop - start) / step⌉.toNat)).map (fun i : Nat => start + (i : ℚ) * step)

/-- `_calculate_segment_correction`: `np.arange(0.01, 0.03, 0.02 / k)` reversed
(the trailing `expand_dims` only adds a broadcast axis). -/
def calculateSegmentCorrection (k : Nat) : List ℚ :=
  (arangeQ (1 / 100) (3 / 100) (2 / 100 / k)).reverse

/-- `_compute_new_face_vert_idxs`: for every strand `i` and segment `j`,
the quad `(corr + j, corr + j + 1, corr + 2k - j - 2, corr + 2k - j - 1)`
with `corr = 2ki`; `faces_parallel` is a copy of `faces`. -/
def computeNewFaceVertIdxs (k n : Nat) : List (List (Nat × Nat × Nat × Nat)) :=
  (List.range n).map (fun i =>
    (List.range (k - 1)).map (fun j =>
      let corr := i * k * 2
      (corr + j, corr + j + 1, corr + k * 2 - j - 2, corr + k * 2 - j - 1)))

/-- The `length_correction` scalar of one strand: start at `1.0`, replace by
`0.8` where the first-to-last distance is below `0.01`, then by `0.6` where it
is below `0.005`.  `nrm` stands for `np.linalg.norm` on one row. -/
def lengthCorrectionOf (nrm : Vec3 → ℚ) (row : List Vec3) : ℚ :=
  let hl := nrm (sub3 (row.headD v0) (row.getLastD v0))
  if hl < 5 / 1000 then 3 / 5 else if hl < 1 / 100 then 4 / 5 else 1

/-- `_compute_new_ver_coordinaes` restricted to one strand: returns the
`2k` flat-ribbon vertices (`left ++ right`) and the `2k` parallel-ribbon
vertices (`top ++ bottom`). -/
def newVertsOfStrand (nrm : Vec3 → ℚ) (seg : List ℚ)
    (coordsRow normalsRow perpRow : List Vec3) : List Vec3 × List Vec3 :=
  let lc := lengthCorrectionOf nrm coordsRow
  let perpOffset := List.zipWith (fun s p => smul3 (s * lc) p) seg perpRow
  let headOffset := List.zipWith (fun s nv => smul3 (s * lc * (3 / 10)) (abs3 nv)) seg normalsRow
  let right := List.zipWith add3 coordsRow perpOffset
  let left := List.zipWith sub3 coordsRow.reverse perpOffset
  let top := List.zipWith add3 coordsRow headOffset
  let bottom := List.zipWith sub3 coordsRow headOffset
  (left ++ right, top ++ bottom)

/-- `_compute_new_ver_coordinaes`: the reshaped `new_verts` and
`new_verts_parallel` arrays.  `perpendicular` is received as an argument,
exactly as in the source.  The `np.abs` in the head-normal offset is applied
inside `newVertsOfStrand`; the reshape `(-1, 3)` is the final `join`. -/
def computeNewVerCoordinaes (nrm : Vec3 → ℚ) (k : Nat)
    (coords normals perp : List (List Vec3)) : List Vec3 × List Vec3 :=
  let seg := calculateSegmentCorrection k
  let rows := List.zipWith (fun cn pp => newVertsOfStrand nrm seg cn.1 cn.2 pp)
    (coords.zip normals) perp
  ((rows.map Prod.fst).flatten, (rows.map Prod.snd).flatten)

/-- Fix-up `hair_key_vectors[:, -1] = hair_key_vectors[:, -2]` on one row
(applied when `hair_co_len > 1`). -/
def fixLastRow (row : List Vec3) : List Vec3 :=
  row.dropLast ++ [row.getD (row.length - 2) v0]

/-- `_calculate_perpendicular_vec`: rolled differences, normalised by the
external `normalize` kernel (parameter `normalizeV`), last column overwritten
when `k > 1`, then the cross product with the body normals. -/
def calculatePerpendicularVec (normalizeV : Vec3 → Vec3) (k : Nat)
    (coords normals : List (List Vec3)) : List (List Vec3) :=
  let vectors := coords.map (fun row =>
    List.zipWith (fun nxt cur => normalizeV (sub3 nxt cur)) (row.rotateLeft 1) row)
  let vectors := if 1 < k then vectors.map fixLastRow else vectors
  List.zipWith (fun nr vr => List.zipWith cross3 nr vr) normals vectors

/-- Offset a quad's four indices, modelling `faces_parallel + len(new_verts)`. -/
def offsetQuad (off : Nat) (q : Nat × Nat × Nat × Nat) : Nat × Nat × Nat × Nat :=
  (q.1 + off, q.2.1 + off, q.2.2.1 + off, q.2.2.2 + off)

/-- The per-group assembly of `create_mesh` (lines 150–152):
`all_verts = np.concatenate((new_verts, new_verts_parallel))` and
`all_faces = np.concatenate((faces, faces_parallel + len(new_verts)))`
reshaped to `(-1, 4)`. -/
def assembleHairMesh (nrm : Vec3 → ℚ) (k : Nat)
    (coords normals perp : List (List Vec3)) :
    List Vec3 × List (Nat × Nat × Nat × Nat) :=
  let nv := computeNewVerCoordinaes nrm k coords normals perp
  let faces := computeNewFaceVertIdxs k coords.length
  let facesParallel := faces
  (nv.1 ++ nv.2,
   faces.flatten ++ (facesParallel.map (fun row => row.map (offsetQuad nv.1.length))).flatten)

/-! ## UV zone selection (`_set_vert_group_uvs`, lines 297–333) -/

/-- One rectangle of the haircard atlas: `(bottom_left, top_right)`. -/
abbrev Rect : Type := (ℚ × ℚ) × (ℚ × ℚ)

/-- One value of `hairzone_uv_dict["long"]` / `["short"]`: its `"wide"` and
`"narrow"` rectangle lists. -/
structure SubZone where
  wide : List Rect
  narrow : List Rect

/-- The two top-level tables of `hairzone_uv_dict`, with each table's values
listed in dictionary order (what `list(….values())` iterates). -/
structure Atlas where
  long : List SubZone
  short : List SubZone

/-- `random.choice(l)` with the random outcome externalised as an index `r`;
`none` models the `IndexError` on an empty sequence. -/
def randomChoice {α : Type} (r : Nat) (l : List α) : Option α :=
  l.get? (r % l.length)

/-- The zone-selection kernel of `_set_vert_group_uvs` for one card, given the
measured `length` (`|verts[0] - verts[vert_len]|`) and `width`
(`|verts[0] - verts[-1]|`) and the outcomes `r1`, `r2` of the two
`random.choice` calls. -/
def chooseZone (atlas : Atlas) (length width : ℚ) (r1 r2 : Nat) : Option Rect :=
  if (1 / 20 : ℚ) < length then
    match randomChoice r1 atlas.long with
    | none => none
    | some sub => if (1 / 50 : ℚ) < width then randomChoice r2 sub.wide
        else randomChoice r2 sub.narrow
  else
    match randomChoice r1 atlas.short with
    | none => none
    | some sub => if (1 / 100 : ℚ) < width then randomChoice r2 sub.wide
        else randomChoice r2 sub.narrow

/-- The measured card length of `_set_vert_group_uvs`:
`length = (hair_verts[0].co - hair_verts[vert_len].co).length`. -/
def cardLength (nrm : Vec3 → ℚ) (vertLen : Nat) (hairVerts : List Vec3) : ℚ :=
  nrm (sub3 (hairVerts.headD v0) (hairVerts.getD vertLen v0))

/-- The measured card width of `_set_vert_group_uvs`:
`width = (hair_verts[0].co - hair_verts[-1].co).length`. -/
def cardWidth (nrm : Vec3 → ℚ) (hairVerts : List Vec3) : ℚ :=
  nrm (sub3 (hairVerts.headD v0) (hairVerts.getLastD v0))

/-- The measurement plus selection for one card of `2 * vertLen` vertices. -/
def cardZone (nrm : Vec3 → ℚ) (atlas : Atlas) (vertLen : Nat)
    (hairVerts : List Vec3) (r1 r2 : Nat) : Option Rect :=
  chooseZone atlas (cardLength nrm vertLen hairVerts) (cardWidth nrm hairVerts) r1 r2

/-! ## Haircap density painting (`add_haircap`, lines 384–429) -/

/-- RGBA vertex color. -/
abbrev Color : Type := ℚ × ℚ × ℚ × ℚ

def black : Color := ((0 : ℚ), (0 : ℚ), (0 : ℚ), (1 : ℚ))

/-- `np.round` (half to even) of a rational to an integer. -/
def roundHalfEven (q : ℚ) : ℤ :=
  let f := ⌊q⌋
  let r := q - f
  if r < 1 / 2 then f
  else if 1 / 2 < r then f + 1
  else if f % 2 = 0 then f else f + 1

/-- `np.round(x, 4)`. -/
def round4 (q : ℚ) : ℚ := (roundHalfEven (q * 10000) : ℚ) / 10000

/-- `np.clip(x, 0, 1)`. -/
def clip01 (q : ℚ) : ℚ := max 0 (min 1 q)

/-- One density vertex group: `vg.weight(i)` returning `none` for the
`RuntimeError` raised when vertex `i` is not assigned to the group. -/
abbrev VG : Type := Nat → Option ℚ

/-- The accumulation loop of `add_haircap`: `vg_values[i] = vg.weight(i)`
under `contextlib.suppress(RuntimeError)` (so unassigned vertices keep the
`np.zeros` value `0`), summed over all groups with `vg_aggregate += vg_values`. -/
def vgAggregateRaw (groups : List VG) : Nat → ℚ :=
  groups.foldl (fun acc vg => fun i => acc i + (vg i).getD 0) (fun _ => 0)

/-- `vg_aggregate = np.clip(np.round(vg_aggregate, 4), 0, 1)` (the source
rounds first, then clips). -/
def vgAggregate (groups : List VG) (i : Nat) : ℚ :=
  clip01 (round4 (vgAggregateRaw groups i))

/-- The first painting pass: `vc.data[i].color = (value, value, value, 1)`
with `value = vg_aggregate[nearest_vert_index]`; `nearest` stands for the
kd-tree lookup `self.kd.find(vert_world_co)[1]`. -/
def paintCapColors (agg : Nat → ℚ) (nearest : Nat → Nat) : Nat → Color :=
  fun i => (agg (nearest i), agg (nearest i), agg (nearest i), 1)

/-- The haircap mesh as read back by `bmesh`: faces as cyclic vertex lists
and the edge list. -/
structure CapMesh where
  faces : List (List Nat)
  edges : List (Nat × Nat)

/-- Whether the undirected edge `(a, b)` is one of the cyclic boundary pairs
of face `f`. -/
def edgeInFace (a b : Nat) (f : List Nat) : Bool :=
  (f.zip (f.rotateLeft 1)).any (fun xy =>
    (xy.1 = a && xy.2 = b) || (xy.1 = b && xy.2 = a))

/-- `edge.is_boundary`: the edge borders exactly one face. -/
def isBoundary (m : CapMesh) (e : Nat × Nat) : Bool :=
  (m.faces.countP (edgeInFace e.1 e.2)) = 1

def updateColor (cols : Nat → Color) (i : Nat) (c : Color) : Nat → Color :=
  fun j => if j = i then c else cols j

/-- The boundary pass of `add_haircap`: for every boundary edge, both endpoint
colors are overwritten with `(0, 0, 0, 1)`. -/
def zeroBoundary (m : CapMesh) (cols : Nat → Color) : Nat → Color :=
  m.edges.foldl (fun cs e =>
    if isBoundary m e then updateColor (updateColor cs e.1 black) e.2 black else cs)
    cols

/-! ## Strand extraction (`_walk_island`, `_get_individual_hairs`) -/

/-- The input hair mesh as seen through `bmesh`: `nverts` vertices, and for
vertex `v` the list `adj v` of `e.other_vert(v)` over `v.link_edges`. -/
structure BM where
  nverts : Nat
  adj : Nat → List Nat

/-- `_walk_island`: tag the vertex, yield its index, compute the currently
un-tagged linked vertices, then for each of them in order skip it if it got
tagged in the meantime and otherwise recurse into it (the
`for v in linked_verts: if v.tag: continue; yield from _walk_island(v)` loop
is the fold).  The tag flags are the list `tags`; `fuel` bounds the recursion
depth (any `fuel` at least the component size is exact).  Returns the yielded
indices and the final tag state. -/
def walkIsland (adj : Nat → List Nat) : Nat → List Nat → Nat → List Nat × List Nat
  | 0, tags, v => ([v], v :: tags)
  | fuel + 1, tags, v =>
    let tags1 := v :: tags
    let linked := (adj v).filter (fun w => decide (w ∉ tags1))
    let folded := linked.foldl
      (fun st w =>
        if w ∈ st.2 then st
        else
          let r := walkIsland adj fuel st.2 w
          (st.1 ++ r.1, r.2))
      ([], tags1)
    (v :: folded.1, folded.2)

/-- The strand length paired with each yielded island:
`np.linalg.norm(self.hair_coords[island_idxs[0]] - self.hair_coords[island_idxs[-2]])`. -/
def strandLength {L : Type} (nrm : Vec3 → L) (coords : Nat → Vec3)
    (idxs : List Nat) : L :=
  nrm (sub3 (coords (idxs.headD 0)) (coords (idxs.getD (idxs.length - 2) 0)))

/-- The main loop of `_get_individual_hairs` over the collected start
vertices, threading the tag state and the `found_verts` set (to which only
`island_idxs[-1]` is added). -/
def getHairsAux {L : Type} (nrm : Vec3 → L) (coords : Nat → Vec3)
    (adj : Nat → List Nat) (fuel : Nat) :
    List Nat → List Nat → List Nat → List (List Nat × L)
  | [], _, _ => []
  | v :: vs, tags, found =>
    if v ∈ found then getHairsAux nrm coords adj fuel vs tags found
    else
      let walked := walkIsland adj fuel tags v
      (walked.1, strandLength nrm coords walked.1) ::
        getHairsAux nrm coords adj fuel vs walked.2 (walked.1.getLastD 0 :: found)

/-- `start_verts`: the vertices with exactly one linked edge, in `bm.verts`
index order. -/
def startVerts (m : BM) : List Nat :=
  (List.range m.nverts).filter (fun v => (m.adj v).length = 1)

/-- `_get_individual_hairs`: walk each island from an un-consumed degree-1
start vertex, yielding the index array together with the
first-to-second-to-last distance. -/
def getIndividualHairs {L : Type} (nrm : Vec3 → L) (coords : Nat → Vec3)
    (m : BM) : List (List Nat × L) :=
  getHairsAux nrm coords m.adj m.nverts (startVerts m) [] []

/-- A two-vertex single-strand mesh used to instantiate the extraction
theorems on a concrete input. -/
def pathBM : BM :=
  ⟨2, fun v => if v = 0 then [1] else if v = 1 then [0] else []⟩

/-- The hypothesis of the strand-extraction claims: `p` lists the vertices of
one connected component of `m` that is a simple open edge-path, in path
order.  `m.adj v` must be, up to order, exactly the one or two path
neighbours of `v`. -/
def IsPathIn (m : BM) (p : List Nat) : Prop :=
  2 ≤ p.length ∧ p.Nodup ∧ (∀ x ∈ p, x < m.nverts) ∧
    ∀ pre v suf, p = pre ++ v :: suf →
      (m.adj v).Perm (pre.getLast?.toList ++ suf.head?.toList)

/-- The input hair mesh decomposes into simple open paths: each listed path
is a path component, and together they cover every vertex exactly once. -/
def IsPathDecomp (m : BM) (ps : List (List Nat)) : Prop :=
  (∀ p ∈ ps, IsPathIn m p) ∧ ps.flatten.Perm (List.range m.nverts)

/-- The property of being the Euclidean norm of a rational 3-vector, the
meaning of `np.linalg.norm` on one row (kept as a predicate on the norm
parameter so that all definitions stay executable). -/
def IsEuclideanNorm (nrm : Vec3 → ℝ) : Prop :=
  ∀ a : Vec3, nrm a = Real.sqrt ((a.1 : ℝ) ^ 2 + (a.2.1 : ℝ) ^ 2 + (a.2.2 : ℝ) ^ 2)

/- ### Helper lemmas -/

lemma sliceStep_get? {α : Type} (n : Nat) (hn : 1 ≤ n) :
    ∀ (l : List α) (j : Nat), (sliceStep n l).get? j = l.get? (j * n) := by
  suffices h : ∀ (m : Nat) (l : List α), l.length = m →
      ∀ j, (sliceStep n l).get? j = l.get? (j * n) by
    intro l j; exact h l.length l rfl j
  intro m
  induction m using Nat.strong_induction_on with
  | _ m ih =>
    intro l hlen j
    match l with
    | [] => simp [sliceStep]
    | x :: xs =>
      match j with
      | 0 => simp [sliceStep]
      | j + 1 =>
        have hlt : (xs.drop (n - 1)).length < m := by
          subst hlen; simp [List.length_drop]; omega
        have hih := ih _ hlt (xs.drop (n - 1)) rfl j
        have harith : (j + 1) * n = n - 1 + j * n + 1 := by
          have : 1 ≤ n := hn
          nlinarith [Nat.sub_add_cancel this]
        rw [sliceStep, harith, List.get?_cons_succ, List.get?_cons_succ, hih]
        simp [List.get?_eq_getElem?, List.getElem?_drop]

lemma exists_of_mem_zipWith {α β γ : Type} {f : α → β → γ} {l1 : List α}
    {l2 : List β} {x : γ} (h : x ∈ List.zipWith f l1 l2) :
    ∃ a ∈ l1, ∃ b ∈ l2, x = f a b := by
  obtain ⟨i, hi, hx⟩ := List.mem_iff_getElem.mp h
  have h1 : i < l1.length := by simp [List.length_zipWith] at hi; omega
  have h2 : i < l2.length := by simp [List.length_zipWith] at hi; omega
  exact ⟨l1[i], List.getElem_mem _, l2[i], List.getElem_mem _,
    by rw [← hx, List.getElem_zipWith]⟩

lemma flatten_length_const {α : Type} (l : List (List α)) (c : Nat)
    (h : ∀ r ∈ l, r.length = c) : l.flatten.length = l.length * c := by
  induction l with
  | nil => simp
  | cons x xs ih =>
    simp only [List.flatten_cons, List.length_append, List.length_cons]
    rw [h x (List.mem_cons_self x xs), ih (fun r hr => h r (List.mem_cons_of_mem _ hr))]
    ring

lemma calculateSegmentCorrection_length (k : Nat) (hk : 1 ≤ k) :
    (calculateSegmentCorrection k).length = k := by
  unfold calculateSegmentCorrection arangeQ
  have hk0 : (k : ℚ) ≠ 0 := by positivity
  have h2 : ((3 / 100 : ℚ) - 1 / 100) / (2 / 100 / k) = (k : ℚ) := by
    field_simp
    ring
  rw [List.length_reverse, List.length_map, List.length_range, h2, Int.ceil_natCast,
    Int.toNat_natCast]

lemma newVertsOfStrand_length (nrm : Vec3 → ℚ) (seg : List ℚ)
    (cr nr pr : List Vec3) (k : Nat) (hs : seg.length = k) (hc : cr.length = k)
    (hn : nr.length = k) (hp : pr.length = k) :
    (newVertsOfStrand nrm seg cr nr pr).1.length = 2 * k ∧
      (newVertsOfStrand nrm seg cr nr pr).2.length = 2 * k := by
  unfold newVertsOfStrand
  simp only [List.length_append, List.length_zipWith, List.length_reverse, hs, hc, hn, hp,
    Nat.min_self]
  omega

lemma computeNewVerCoordinaes_length (nrm : Vec3 → ℚ) (k n : Nat) (hk : 1 ≤ k)
    (coords normals perp : List (List Vec3))
    (hc : coords.length = n) (hcr : ∀ r ∈ coords, r.length = k)
    (hn : normals.length = n) (hnr : ∀ r ∈ normals, r.length = k)
    (hp : perp.length = n) (hpr : ∀ r ∈ perp, r.length = k) :
    (computeNewVerCoordinaes nrm k coords normals perp).1.length = 2 * n * k ∧
      (computeNewVerCoordinaes nrm k coords normals perp).2.length = 2 * n * k := by
  unfold computeNewVerCoordinaes
  have hseg := calculateSegmentCorrection_length k hk
  set seg := calculateSegmentCorrection k with hsegdef
  set rows := List.zipWith (fun cn pp => newVertsOfStrand nrm seg cn.1 cn.2 pp)
    (coords.zip normals) perp with hrows
  have hrowlen : rows.length = n := by
    rw [hrows]; simp [List.length_zipWith, hc, hn, hp]
  have hrowmem : ∀ pr ∈ rows, pr.1.length = 2 * k ∧ pr.2.length = 2 * k := by
    intro pr hpr2
    rw [hrows] at hpr2
    obtain ⟨cn, hcn, pp, hpp, heq⟩ := exists_of_mem_zipWith hpr2
    have hcnm := List.of_mem_zip hcn
    subst heq
    exact newVertsOfStrand_length nrm seg _ _ _ k hseg
      (hcr _ hcnm.1) (hnr _ hcnm.2) (hpr _ hpp)
  constructor
  · rw [flatten_length_const (rows.map Prod.fst) (2 * k)
      (by intro r hr; obtain ⟨pr, hpr2, rfl⟩ := List.mem_map.mp hr; exact (hrowmem pr hpr2).1)]
    simp [hrowlen]
    ring
  · rw [flatten_length_const (rows.map Prod.snd) (2 * k)
      (by intro r hr; obtain ⟨pr, hpr2, rfl⟩ := List.mem_map.mp hr; exact (hrowmem pr hpr2).2)]
    simp [hrowlen]
    ring

lemma computeNewFaceVertIdxs_shape (k n : Nat) :
    (computeNewFaceVertIdxs k n).length = n ∧
      ∀ row ∈ computeNewFaceVertIdxs k n, row.length = k - 1 := by
  unfold computeNewFaceVertIdxs
  constructor
  · simp
  · intro row hrow
    obtain ⟨i, _, rfl⟩ := List.mem_map.mp hrow
    simp

lemma lengthClass_short_iff (l : ℚ) : lengthClass l = .short ↔ l ≤ 0.05 := by
  unfold lengthClass
  split_ifs with h1 h2
  · exact iff_of_false (by decide) (by intro h; norm_num at h; linarith)
  · exact iff_of_false (by decide) (by intro h; norm_num at h; linarith)
  · exact iff_of_true rfl (by norm_num; linarith)

lemma lengthClass_medium_iff (l : ℚ) :
    lengthClass l = .medium ↔ 0.05 < l ∧ l ≤ 0.1 := by
  unfold lengthClass
  split_ifs with h1 h2
  · exact iff_of_false (by decide) (by rintro ⟨ha, hb⟩; norm_num at hb; linarith)
  · exact iff_of_true rfl ⟨by norm_num; linarith, by norm_num; linarith⟩
  · exact iff_of_false (by decide) (by rintro ⟨ha, hb⟩; norm_num at ha; linarith)

lemma lengthClass_long_iff (l : ℚ) : lengthClass l = .long ↔ 0.1 < l := by
  unfold lengthClass
  split_ifs with h1 h2
  · exact iff_of_true rfl (by norm_num; linarith)
  · exact iff_of_false (by decide) (by intro h; norm_num at h; linarith)
  · exact iff_of_false (by decide) (by intro h; norm_num at h; linarith)

/-- Walking from position `|pre|` of a simple path whose already-tagged
vertices are exactly `pre` yields the rest of the path in order and tags it. -/
lemma walkIsland_path (adj : Nat → List Nat) (p : List Nat) (hnd : p.Nodup)
    (hadj : ∀ pre v suf, p = pre ++ v :: suf →
      (adj v).Perm (pre.getLast?.toList ++ suf.head?.toList)) :
    ∀ (suf pre : List Nat) (v : Nat) (tags : List Nat) (fuel : Nat),
      p = pre ++ v :: suf → suf.length < fuel →
      (∀ x ∈ p, x ∈ tags ↔ x ∈ pre) →
      walkIsland adj fuel tags v = (v :: suf, (v :: suf).reverse ++ tags) := by
  intro suf
  induction suf with
  | nil =>
    intro pre v tags fuel hdecomp hfuel htags
    cases fuel with
    | zero => omega
    | succ fuel =>
      simp only [walkIsland]
      have hperm := hadj pre v [] hdecomp
      simp only [List.head?_nil, Option.toList_none, List.append_nil] at hperm
      have hlinked : (adj v).filter (fun w => decide (w ∉ v :: tags)) = [] := by
        rw [List.filter_eq_nil_iff]
        intro a ha
        simp only [decide_eq_true_eq, Decidable.not_not]
        have hmem := hperm.mem_iff.mp ha
        have hsome : pre.getLast? = some a := by
          cases hp : pre.getLast? with
          | none => rw [hp] at hmem; cases hmem
          | some b =>
            rw [hp] at hmem
            simp only [Option.toList_some, List.mem_singleton] at hmem
            rw [hmem]
        have hapre : a ∈ pre := List.mem_of_getLast?_eq_some hsome
        have hap : a ∈ p := by
          rw [hdecomp]; exact List.mem_append_left _ hapre
        exact List.mem_cons_of_mem v ((htags a hap).mpr hapre)
      rw [hlinked]
      simp
  | cons w suf' ih =>
    intro pre v tags fuel hdecomp hfuel htags
    cases fuel with
    | zero => omega
    | succ fuel =>
      have hfuel' : suf'.length < fuel := by
        simp only [List.length_cons] at hfuel; omega
      have hndp : (pre ++ v :: w :: suf').Nodup := hdecomp ▸ hnd
      have hnds : (v :: w :: suf').Nodup := (List.nodup_append.mp hndp).2.1
      have hdisj : List.Disjoint pre (v :: w :: suf') := (List.nodup_append.mp hndp).2.2
      have hvw : v ≠ w := by
        have := (List.nodup_cons.mp hnds).1
        intro h; exact this (h ▸ List.mem_cons_self w suf')
      have hwp : w ∈ p := by
        rw [hdecomp]
        exact List.mem_append_right _ (List.mem_cons_of_mem v (List.mem_cons_self w suf'))
      have hwpre : w ∉ pre := fun hmem =>
        hdisj hmem (List.mem_cons_of_mem v (List.mem_cons_self w suf'))
      have hwt : w ∉ tags := fun h => hwpre ((htags w hwp).mp h)
      have hwt1 : w ∉ v :: tags := by
        intro h
        rcases List.mem_cons.mp h with h | h
        · exact hvw h.symm
        · exact hwt h
      have hperm := hadj pre v (w :: suf') hdecomp
      simp only [List.head?_cons, Option.toList_some] at hperm
      have hlinked : (adj v).filter (fun x => decide (x ∉ v :: tags)) = [w] := by
        have hfp : (pre.getLast?.toList ++ [w]).filter
            (fun x => decide (x ∉ v :: tags)) = [w] := by
          rw [List.filter_append]
          have h1 : pre.getLast?.toList.filter (fun x => decide (x ∉ v :: tags)) = [] := by
            rw [List.filter_eq_nil_iff]
            intro a ha
            simp only [decide_eq_true_eq, Decidable.not_not]
            cases hp : pre.getLast? with
            | none => rw [hp] at ha; cases ha
            | some b =>
              rw [hp] at ha
              simp only [Option.toList_some, List.mem_singleton] at ha
              subst ha
              have hapre : a ∈ pre := List.mem_of_getLast?_eq_some hp
              have hap : a ∈ p := by
                rw [hdecomp]; exact List.mem_append_left _ hapre
              exact List.mem_cons_of_mem v ((htags a hap).mpr hapre)
          have h2 : List.filter (fun x => decide (x ∉ v :: tags)) [w] = [w] := by
            simp only [List.filter_cons, List.filter_nil]
            rw [if_pos (by simpa using hwt1)]
          rw [h1, h2, List.nil_append]
        have hpf := hperm.filter (fun x => decide (x ∉ v :: tags))
        rw [hfp] at hpf
        exact List.perm_singleton.mp hpf
      have hIH := ih (pre ++ [v]) w (v :: tags) fuel
        (by rw [hdecomp]; simp)
        hfuel'
        (by
          intro x hx
          constructor
          · intro hxt
            rcases List.mem_cons.mp hxt with h | h
            · subst h; exact List.mem_append_right _ (List.mem_singleton.mpr rfl)
            · exact List.mem_append_left _ ((htags x hx).mp h)
          · intro hxp
            rcases List.mem_append.mp hxp with h | h
            · exact List.mem_cons_of_mem v ((htags x hx).mpr h)
            · rw [List.mem_singleton] at h
              subst h; exact List.mem_cons_self x tags)
      simp only [walkIsland, hlinked, List.foldl_cons, List.foldl_nil]
      rw [if_neg hwt1]
      simp only [hIH, List.nil_append]
      simp [List.append_assoc]

/-- A path component read in reverse order is again a path component. -/
lemma isPathIn_reverse (m : BM) (p : List Nat) (hp : IsPathIn m p) :
    IsPathIn m p.reverse := by
  obtain ⟨hlen, hnd, hlt, hadj⟩ := hp
  refine ⟨by simpa using hlen, List.nodup_reverse.mpr hnd,
    fun x hx => hlt x (List.mem_reverse.mp hx), ?_⟩
  intro pre v suf hdec
  have hdec' : p = suf.reverse ++ v :: pre.reverse := by
    have h := congrArg List.reverse hdec
    rw [List.reverse_reverse] at h
    rw [h]
    simp [List.reverse_append]
  have hperm := hadj suf.reverse v pre.reverse hdec'
  rw [List.getLast?_reverse, List.head?_reverse] at hperm
  exact hperm.trans List.perm_append_comm

/-- A degree-1 vertex of a path component is one of its two end vertices. -/
lemma endpoint_cases (m : BM) (p : List Nat) (hp : IsPathIn m p) (v : Nat)
    (hv : v ∈ p) (hdeg : (m.adj v).length = 1) :
    (∃ suf, p = v :: suf) ∨ (∃ pre, p = pre ++ [v]) := by
  obtain ⟨pre, suf, rfl⟩ := List.append_of_mem hv
  have hperm := hp.2.2.2 pre v suf rfl
  have hlen := hperm.length_eq
  rw [hdeg, List.length_append] at hlen
  cases hpre : pre.getLast? with
  | none =>
    have hnil : pre = [] := List.getLast?_eq_none_iff.mp hpre
    exact Or.inl ⟨suf, by rw [hnil, List.nil_append]⟩
  | some a =>
    rw [hpre] at hlen
    simp only [Option.toList_some, List.length_singleton] at hlen
    have hsuf : suf.head? = none := by
      cases hs : suf.head? with
      | none => rfl
      | some b => rw [hs] at hlen; simp at hlen
    have hnil : suf = [] := List.head?_eq_none_iff.mp hsuf
    exact Or.inr ⟨pre, by rw [hnil]⟩

lemma headD_mem {p : List Nat} (h : p ≠ []) : p.headD 0 ∈ p := by
  cases p with
  | nil => exact absurd rfl h
  | cons a l => exact List.mem_cons_self a l

lemma getLastD_mem {p : List Nat} (h : p ≠ []) : p.getLastD 0 ∈ p := by
  cases hq : p.getLast? with
  | none => exact absurd (List.getLast?_eq_none_iff.mp hq) h
  | some a =>
    rw [List.getLastD_eq_getLast?, hq, Option.getD_some]
    exact List.mem_of_getLast?_eq_some hq

/-- Of two distinct degree-1 vertices on a path component, if the walk order
`q` (the path or its reverse) starts at one, the other is its last entry. -/
lemma other_endpoint (m : BM) (p : List Nat) (hp : IsPathIn m p) (v v' : Nat)
    (hv' : v' ∈ p) (hdv' : (m.adj v').length = 1)
    (hne : v' ≠ v) (q : List Nat) (hq : q = p ∨ q = p.reverse)
    (hqhead : q.headD 0 = v) : v' = q.getLastD 0 := by
  have h1 : v' = p.headD 0 ∨ v' = p.getLastD 0 := by
    rcases endpoint_cases m p hp v' hv' hdv' with ⟨suf2, h⟩ | ⟨pre2, h⟩
    · left; rw [h]; rfl
    · right; rw [h, List.getLastD_concat]
  rcases hq with rfl | rfl
  · rcases h1 with h1 | h1
    · exact absurd (h1.trans hqhead) hne
    · exact h1
  · have hh : p.reverse.headD 0 = p.getLastD 0 := by
      rw [List.headD_eq_head?_getD, List.head?_reverse, List.getLastD_eq_getLast?]
    have hg : p.reverse.getLastD 0 = p.headD 0 := by
      rw [List.getLastD_eq_getLast?, List.getLast?_reverse, List.headD_eq_head?_getD]
    rcases h1 with h1 | h1
    · rw [hg]; exact h1
    · exfalso; apply hne; rw [h1, ← hh, hqhead]

/-- The main loop of `_get_individual_hairs` on a path-decomposed mesh:
given the invariant state (un-walked components `pending`, their vertices
un-tagged, the `found` set covering exactly the remaining start vertices of
already-walked components, both endpoints of every pending component still
ahead in `rem`), the loop yields exactly one strand per pending component —
the component in path order or reversed — and the yielded strands jointly
cover the pending vertices exactly once. -/
lemma getHairsAux_decomp {L : Type} (nrm : Vec3 → L) (coords : Nat → Vec3)
    (m : BM) (ps : List (List Nat))
    (hd : ∀ p ∈ ps, IsPathIn m p)
    (hdisj : ps.Pairwise List.Disjoint) :
    ∀ (rem : List Nat) (pending : List (List Nat)) (tags found : List Nat),
      pending.Sublist ps →
      (∀ p ∈ pending, p.length ≤ m.nverts) →
      (∀ p ∈ pending, ∀ x ∈ p, x ∉ tags) →
      (∀ v ∈ rem, (v ∈ found ↔ ∀ p ∈ pending, v ∉ p)) →
      (∀ p ∈ pending, p.headD 0 ∈ rem ∧ p.getLastD 0 ∈ rem) →
      (∀ v ∈ rem, (m.adj v).length = 1) →
      rem.Nodup →
      (getHairsAux nrm coords m.adj m.nverts rem tags found).length = pending.length ∧
      (∀ pr ∈ getHairsAux nrm coords m.adj m.nverts rem tags found,
        ∃ p ∈ pending, pr.1 = p ∨ pr.1 = p.reverse) ∧
      ((getHairsAux nrm coords m.adj m.nverts rem tags found).map Prod.fst).flatten.Perm
        pending.flatten := by
  intro rem
  induction rem with
  | nil =>
    intro pending tags found hsub hfuel htags hfound hends hdeg hndrem
    have hpe : pending = [] := by
      cases pending with
      | nil => rfl
      | cons p ps2 => exact absurd (hends p (List.mem_cons_self p ps2)).1 (List.not_mem_nil _)
    subst hpe
    refine ⟨rfl, ?_, List.Perm.refl _⟩
    intro pr hpr
    cases hpr
  | cons v rest ih =>
    intro pending tags found hsub hfuel htags hfound hends hdeg hndrem
    have hpw : pending.Pairwise List.Disjoint := hdisj.sublist hsub
    have hpairs : ∀ a ∈ pending, ∀ b ∈ pending, a ≠ b → List.Disjoint a b :=
      fun a ha b hb hne => hpw.forall (fun _ _ h => h.symm) ha hb hne
    have hne_nil : ∀ p ∈ pending, p ≠ [] := by
      intro p hpmem h
      have := (hd p (hsub.subset hpmem)).1
      rw [h] at this
      simp at this
    have hpnd : pending.Nodup := by
      rw [List.Nodup]
      refine hpw.imp_of_mem ?_
      intro a b ha hb hab heq
      subst heq
      exact hab (headD_mem (hne_nil a ha)) (headD_mem (hne_nil a ha))
    by_cases hf : v ∈ found
    · have hstep : getHairsAux nrm coords m.adj m.nverts (v :: rest) tags found =
          getHairsAux nrm coords m.adj m.nverts rest tags found := by
        simp only [getHairsAux]
        rw [if_pos hf]
      rw [hstep]
      have hvnot : ∀ p ∈ pending, v ∉ p := (hfound v (List.mem_cons_self v rest)).mp hf
      apply ih pending tags found hsub hfuel htags
      · intro u hu; exact hfound u (List.mem_cons_of_mem v hu)
      · intro p hpmem
        have he := hends p hpmem
        have hh : p.headD 0 ≠ v := fun h =>
          hvnot p hpmem (h ▸ headD_mem (hne_nil p hpmem))
        have hl : p.getLastD 0 ≠ v := fun h =>
          hvnot p hpmem (h ▸ getLastD_mem (hne_nil p hpmem))
        constructor
        · rcases List.mem_cons.mp he.1 with h1 | h1
          · exact absurd h1 hh
          · exact h1
        · rcases List.mem_cons.mp he.2 with h1 | h1
          · exact absurd h1 hl
          · exact h1
      · intro u hu; exact hdeg u (List.mem_cons_of_mem v hu)
      · exact (List.nodup_cons.mp hndrem).2
    · have hex : ∃ p ∈ pending, v ∈ p := by
        by_contra hno
        push_neg at hno
        exact hf ((hfound v (List.mem_cons_self v rest)).mpr hno)
      obtain ⟨p, hpmem, hvp⟩ := hex
      have hp : IsPathIn m p := hd p (hsub.subset hpmem)
      have hpne : p ≠ [] := hne_nil p hpmem
      have hdeg1 : (m.adj v).length = 1 := hdeg v (List.mem_cons_self v rest)
      have hvrest : v ∉ rest := (List.nodup_cons.mp hndrem).1
      have htagsp : ∀ x ∈ p, x ∈ tags ↔ x ∈ ([] : List Nat) := by
        intro x hx
        simp only [List.not_mem_nil, iff_false]
        exact htags p hpmem x hx
      have hwalk : ∃ q, (q = p ∨ q = p.reverse) ∧ q.headD 0 = v ∧
          walkIsland m.adj m.nverts tags v = (q, q.reverse ++ tags) := by
        rcases endpoint_cases m p hp v hvp hdeg1 with ⟨suf, hsuf⟩ | ⟨pre, hpre⟩
        · refine ⟨p, Or.inl rfl, by rw [hsuf]; rfl, ?_⟩
          have hfl : suf.length < m.nverts := by
            have := hfuel p hpmem
            rw [hsuf] at this
            simp only [List.length_cons] at this
            omega
          have hw := walkIsland_path m.adj p hp.2.1 hp.2.2.2 suf [] v tags m.nverts
            (by rw [hsuf, List.nil_append]) hfl htagsp
          rw [← hsuf] at hw
          exact hw
        · have hprev : IsPathIn m p.reverse := isPathIn_reverse m p hp
          have hdecomp : p.reverse = v :: pre.reverse := by
            rw [hpre]
            simp [List.reverse_append]
          refine ⟨p.reverse, Or.inr rfl, by rw [hdecomp]; rfl, ?_⟩
          have hfl : pre.reverse.length < m.nverts := by
            have := hfuel p hpmem
            rw [hpre] at this
            simp only [List.length_append, List.length_singleton,
              List.length_reverse] at this ⊢
            omega
          have htagsp2 : ∀ x ∈ p.reverse, x ∈ tags ↔ x ∈ ([] : List Nat) := by
            intro x hx
            exact htagsp x (List.mem_reverse.mp hx)
          have hw := walkIsland_path m.adj p.reverse hprev.2.1 hprev.2.2.2
            pre.reverse [] v tags m.nverts (by rw [hdecomp, List.nil_append]) hfl htagsp2
          rw [← hdecomp] at hw
          exact hw
      obtain ⟨q, hq, hqhead, hwalkeq⟩ := hwalk
      have hqp : ∀ x, x ∈ q ↔ x ∈ p := by
        rcases hq with rfl | rfl
        · intro x; exact Iff.rfl
        · intro x; exact List.mem_reverse
      have hqne : q ≠ [] := by
        rcases hq with rfl | rfl
        · exact hpne
        · simpa using hpne
      have hstep : getHairsAux nrm coords m.adj m.nverts (v :: rest) tags found =
          (q, strandLength nrm coords q) ::
            getHairsAux nrm coords m.adj m.nverts rest (q.reverse ++ tags)
              (q.getLastD 0 :: found) := by
        simp only [getHairsAux]
        rw [if_neg hf, hwalkeq]
      rw [hstep]
      obtain ⟨s, t, hpd⟩ := List.append_of_mem hpmem
      have hpnds : (s ++ p :: t).Nodup := hpd ▸ hpnd
      have hps : p ∉ s := fun hmem =>
        (List.nodup_append.mp hpnds).2.2 hmem (List.mem_cons_self p t)
      have hpt : p ∉ t := (List.nodup_cons.mp (List.nodup_append.mp hpnds).2.1).1
      have hmem2 : ∀ p2 ∈ s ++ t, p2 ≠ p ∧ p2 ∈ pending := by
        intro p2 h
        constructor
        · intro heq
          subst heq
          rcases List.mem_append.mp h with h1 | h1
          · exact hps h1
          · exact hpt h1
        · rw [hpd]
          rcases List.mem_append.mp h with h1 | h1
          · exact List.mem_append_left _ h1
          · exact List.mem_append_right _ (List.mem_cons_of_mem p h1)
      have hpendmem : ∀ p2 ∈ pending, p2 = p ∨ p2 ∈ s ++ t := by
        intro p2 h
        rw [hpd] at h
        rcases List.mem_append.mp h with h1 | h1
        · exact Or.inr (List.mem_append_left _ h1)
        · rcases List.mem_cons.mp h1 with h2 | h2
          · exact Or.inl h2
          · exact Or.inr (List.mem_append_right _ h2)
      have hsub2 : (s ++ t).Sublist pending := by
        rw [hpd]
        exact List.Sublist.append_left (List.sublist_cons_self p t) s
      have hdisjp : ∀ p2 ∈ s ++ t, List.Disjoint p2 p := fun p2 h =>
        hpairs p2 (hmem2 p2 h).2 p hpmem (hmem2 p2 h).1
      have hqlast_p : q.getLastD 0 ∈ p := (hqp _).mp (getLastD_mem hqne)
      obtain ⟨hlen2, hqs2, hperm2⟩ := ih (s ++ t) (q.reverse ++ tags)
        (q.getLastD 0 :: found)
        (hsub2.trans hsub)
        (fun p2 h => hfuel p2 (hmem2 p2 h).2)
        (by
          intro p2 h x hx
          rw [List.mem_append, List.mem_reverse]
          rintro (hxq | hxt)
          · exact hdisjp p2 h hx ((hqp x).mp hxq)
          · exact htags p2 (hmem2 p2 h).2 x hx hxt)
        (by
          intro u hu
          constructor
          · intro hin p2 h hup2
            rcases List.mem_cons.mp hin with h1 | h1
            · exact hdisjp p2 h hup2 (h1 ▸ hqlast_p)
            · exact (hfound u (List.mem_cons_of_mem v hu)).mp h1 p2 (hmem2 p2 h).2 hup2
          · intro hno
            by_cases hup : u ∈ p
            · have huv : u ≠ v := fun h => hvrest (h ▸ hu)
              have hdegu : (m.adj u).length = 1 := hdeg u (List.mem_cons_of_mem v hu)
              have := other_endpoint m p hp v u hup hdegu huv q hq hqhead
              rw [this]
              exact List.mem_cons_self _ _
            · have hall : ∀ p2 ∈ pending, u ∉ p2 := by
                intro p2 h
                rcases hpendmem p2 h with rfl | h1
                · exact hup
                · exact hno p2 h1
              exact List.mem_cons_of_mem _
                ((hfound u (List.mem_cons_of_mem v hu)).mpr hall))
        (by
          intro p2 h
          obtain ⟨hneq, hmem⟩ := hmem2 p2 h
          have he := hends p2 hmem
          have hd2 : List.Disjoint p2 p := hdisjp p2 h
          have hh : p2.headD 0 ≠ v := fun heq =>
            hd2 (headD_mem (hne_nil p2 hmem)) (heq ▸ hvp)
          have hl : p2.getLastD 0 ≠ v := fun heq =>
            hd2 (getLastD_mem (hne_nil p2 hmem)) (heq ▸ hvp)
          constructor
          · rcases List.mem_cons.mp he.1 with h1 | h1
            · exact absurd h1 hh
            · exact h1
          · rcases List.mem_cons.mp he.2 with h1 | h1
            · exact absurd h1 hl
            · exact h1)
        (fun u hu => hdeg u (List.mem_cons_of_mem v hu))
        ((List.nodup_cons.mp hndrem).2)
      refine ⟨?_, ?_, ?_⟩
      · simp only [List.length_cons, hlen2]
        rw [hpd]
        simp only [List.length_append, List.length_cons]
        omega
      · intro pr hpr
        rcases List.mem_cons.mp hpr with rfl | hpr2
        · refine ⟨p, hpmem, ?_⟩
          rcases hq with rfl | rfl
          · exact Or.inl rfl
          · exact Or.inr rfl
        · obtain ⟨p2, hp2mem, hcase⟩ := hqs2 pr hpr2
          exact ⟨p2, (hmem2 p2 hp2mem).2, hcase⟩
      · have hqperm : q.Perm p := by
          rcases hq with rfl | rfl
          · exact List.Perm.refl _
          · exact List.reverse_perm p
        have hpendperm : pending.Perm (p :: (s ++ t)) := by
          rw [hpd]
          exact List.perm_middle
        simp only [List.map_cons, List.flatten_cons]
        refine (hperm2.append_left q).trans ?_
        refine (hqperm.append_right _).trans ?_
        have hfl2 : (p :: (s ++ t)).flatten = p ++ (s ++ t).flatten := by
          simp
        rw [← hfl2]
        exact hpendperm.flatten.symm

lemma endpoints_degree_one (m : BM) (p : List Nat) (hp : IsPathIn m p) :
    (m.adj (p.headD 0)).length = 1 ∧ (m.adj (p.getLastD 0)).length = 1 := by
  obtain ⟨hlen, hnd, hlt, hadj⟩ := hp
  match p, hlen with
  | a :: b :: l2, _ =>
    constructor
    · have h1 := hadj [] a (b :: l2) rfl
      have := h1.length_eq
      simpa using this
    · have hne : (a :: b :: l2) ≠ [] := by simp
      have hdecomp : a :: b :: l2 =
          (a :: b :: l2).dropLast ++ [(a :: b :: l2).getLast hne] :=
        (List.dropLast_append_getLast hne).symm
      have h1 := hadj (a :: b :: l2).dropLast ((a :: b :: l2).getLast hne) [] hdecomp
      have hlastd : (a :: b :: l2).getLastD 0 = (a :: b :: l2).getLast hne := by
        rw [List.getLastD_eq_getLast?, List.getLast?_eq_getLast _ hne, Option.getD_some]
      rw [hlastd]
      have hdlne : (a :: b :: l2).dropLast ≠ [] := by
        cases l2 <;> simp [List.dropLast]
      have := h1.length_eq
      rw [List.head?_nil] at this
      cases hg : (a :: b :: l2).dropLast.getLast? with
      | none => exact absurd (List.getLast?_eq_none_iff.mp hg) hdlne
      | some c =>
        rw [hg] at this
        simpa using this

/-- C2: on a hair mesh whose connected components are simple open paths, the
strand extractor yields exactly one strand per component (in path order or
reversed), the strand index sequences are pairwise disjoint, and their union
visits every mesh vertex exactly once. -/
theorem c2_strand_partition {L : Type} (nrm : Vec3 → L) (coords : Nat → Vec3)
    (m : BM) (ps : List (List Nat)) (hdec : IsPathDecomp m ps) :
    (getIndividualHairs nrm coords m).length = ps.length ∧
    (∀ pr ∈ getIndividualHairs nrm coords m, ∃ p ∈ ps, pr.1 = p ∨ pr.1 = p.reverse) ∧
    ((getIndividualHairs nrm coords m).map Prod.fst).flatten.Perm
      (List.range m.nverts) ∧
    ((getIndividualHairs nrm coords m).map Prod.fst).Pairwise List.Disjoint := by
  obtain ⟨hd, hcover⟩ := hdec
  have hrangend : (List.range m.nverts).Nodup := List.nodup_range _
  have hflnd : ps.flatten.Nodup := hcover.nodup_iff.mpr hrangend
  have hdisj : ps.Pairwise List.Disjoint := (List.nodup_flatten.mp hflnd).2
  have hfuel : ∀ p ∈ ps, p.length ≤ m.nverts := by
    intro p hp2
    have h1 : p.length ≤ ps.flatten.length := by
      rw [List.length_flatten]
      exact List.single_le_sum (fun x _ => Nat.zero_le x) _
        (List.mem_map_of_mem List.length hp2)
    rwa [hcover.length_eq, List.length_range] at h1
  have hmain := getHairsAux_decomp nrm coords m ps hd hdisj (startVerts m) ps [] []
    (List.Sublist.refl ps) hfuel
    (by intro p _ x _ h; exact List.not_mem_nil x h)
    (by
      intro v hv
      simp only [List.not_mem_nil, false_iff]
      intro hall
      have hvr : v ∈ List.range m.nverts := List.mem_of_mem_filter hv
      obtain ⟨p, hp2, hvp⟩ := List.mem_flatten.mp (hcover.mem_iff.mpr hvr)
      exact hall p hp2 hvp)
    (by
      intro p hp2
      have hp3 := hd p hp2
      have hnn : p ≠ [] := by
        intro h
        have := hp3.1
        rw [h] at this
        simp at this
      have hdeg := endpoints_degree_one m p hp3
      constructor
      · unfold startVerts
        rw [List.mem_filter]
        exact ⟨List.mem_range.mpr (hp3.2.2.1 _ (headD_mem hnn)),
          decide_eq_true hdeg.1⟩
      · unfold startVerts
        rw [List.mem_filter]
        exact ⟨List.mem_range.mpr (hp3.2.2.1 _ (getLastD_mem hnn)),
          decide_eq_true hdeg.2⟩)
    (by
      intro v hv
      unfold startVerts at hv
      rw [List.mem_filter] at hv
      exact of_decide_eq_true hv.2)
    ((List.nodup_range m.nverts).filter _)
  refine ⟨hmain.1, hmain.2.1, hmain.2.2.trans hcover, ?_⟩
  have hnd2 : ((getHairsAux nrm coords m.adj m.nverts (startVerts m) [] []).map
      Prod.fst).flatten.Nodup :=
    (hmain.2.2.trans hcover).nodup_iff.mpr hrangend
  exact (List.nodup_flatten.mp hnd2).2

/-- C2 witness: a two-vertex single-edge mesh is one path component and its
extraction covers both vertices exactly once. -/
theorem c2_strand_partition_witness :
    IsPathDecomp pathBM [[0, 1]] ∧
    ((getIndividualHairs (fun _ => (0 : ℚ)) (fun _ => v0) pathBM).map
      Prod.fst).flatten.Perm (List.range pathBM.nverts) := by
  have hpath : IsPathIn pathBM [0, 1] := by
    refine ⟨by decide, by decide, by decide, ?_⟩
    intro pre v suf h
    match pre, h with
    | [], h =>
      injection h with h1 h2
      subst h1; subst h2
      decide
    | [a], h =>
      injection h with h1 h2
      injection h2 with h3 h4
      subst h1; subst h3; subst h4
      decide
    | a :: b :: r, h =>
      injection h with h1 h2
      injection h2 with h3 h4
      simp at h4
  have hdec : IsPathDecomp pathBM [[0, 1]] := by
    constructor
    · intro p hp
      rw [List.mem_singleton] at hp
      subst hp
      exact hpath
    · decide
  exact ⟨hdec,
    (c2_strand_partition (fun _ => (0 : ℚ)) (fun _ => v0) pathBM [[0, 1]] hdec).2.2.1⟩

lemma getHairsAux_snd {L : Type} (nrm : Vec3 → L) (coords : Nat → Vec3)
    (adj : Nat → List Nat) (fuel : Nat) :
    ∀ (rem tags found : List Nat),
      ∀ pr ∈ getHairsAux nrm coords adj fuel rem tags found,
        pr.2 = strandLength nrm coords pr.1 := by
  intro rem
  induction rem with
  | nil =>
    intro tags found pr hpr
    simp only [getHairsAux] at hpr
    cases hpr
  | cons v rest ih =>
    intro tags found pr hpr
    simp only [getHairsAux] at hpr
    by_cases hf : v ∈ found
    · rw [if_pos hf] at hpr
      exact ih _ _ pr hpr
    · rw [if_neg hf] at hpr
      rcases List.mem_cons.mp hpr with h | h
      · rw [h]
      · exact ih _ _ pr h

/- ### Claim theorems -/

/-- C4: length classification is a pure total function of the strand's length:
a strand of the extracted list lands in the short filter iff its length is at
most `0.05`, in the medium filter iff its length is in `(0.05, 0.1]`, and in
the long filter iff its length exceeds `0.1`; the boundary values `0.05` and
`0.1` deterministically map to short and medium, and every strand falls in
exactly one bucket. -/
theorem c4_length_classification {α : Type} (hairs : List (α × ℚ)) (x : α × ℚ)
    (hx : x ∈ hairs) :
    (x ∈ shortHairs hairs ↔ lengthClass x.2 = .short) ∧
    (x ∈ mediumHairs hairs ↔ lengthClass x.2 = .medium) ∧
    (x ∈ longHairs hairs ↔ lengthClass x.2 = .long) ∧
    (lengthClass x.2 = .short ↔ x.2 ≤ 0.05) ∧
    (lengthClass x.2 = .medium ↔ 0.05 < x.2 ∧ x.2 ≤ 0.1) ∧
    (lengthClass x.2 = .long ↔ 0.1 < x.2) ∧
    lengthClass (0.05 : ℚ) = .short ∧ lengthClass (0.1 : ℚ) = .medium := by
  refine ⟨?_, ?_, ?_, lengthClass_short_iff _, lengthClass_medium_iff _,
    lengthClass_long_iff _, ?_, ?_⟩
  · rw [lengthClass_short_iff]
    unfold shortHairs
    simp only [List.mem_filter, hx, true_and, decide_eq_true_eq]
    norm_num
  · rw [lengthClass_medium_iff]
    unfold mediumHairs
    simp only [List.mem_filter, hx, true_and, Bool.and_eq_true, decide_eq_true_eq]
    constructor
    · rintro ⟨ha, hb⟩; constructor <;> [norm_num; skip] <;> linarith
    · rintro ⟨ha, hb⟩
      norm_num at ha hb
      exact ⟨by linarith, by linarith⟩
  · rw [lengthClass_long_iff]
    unfold longHairs
    simp only [List.mem_filter, hx, true_and, decide_eq_true_eq]
    norm_num
  · rw [lengthClass_short_iff]
  · rw [lengthClass_medium_iff]
    norm_num

/-- C4 witness: at the boundary input `0.05` the strand is classified short. -/
theorem c4_length_classification_witness :
    ((), (0.05 : ℚ)) ∈ [((), (0.05 : ℚ))] ∧
      (((), (0.05 : ℚ)) ∈ shortHairs [((), (0.05 : ℚ))] ↔
        lengthClass (0.05 : ℚ) = .short) :=
  ⟨List.mem_singleton.mpr rfl,
    (c4_length_classification [((), (0.05 : ℚ))] ((), (0.05 : ℚ))
      (List.mem_singleton.mpr rfl)).1⟩

/-- C5 counterexample: the claim that quality tier `high` applies strides
`(6, 6, 3)` to the short, medium and long buckets is false — the tuple
`(3, 6, 6, …)` is consumed positionally as short first. -/
theorem c5_high_strides_counterexample :
    ¬ (strideFor .high .short = 6 ∧ strideFor .high .medium = 6 ∧
       strideFor .high .long = 3) := by
  decide

/-- C5 (amended): under quality tier `high` the strides applied to the short,
medium and long buckets are `3`, `6` and `6` respectively, and the scenario
lengths `0.02`, `0.07`, `0.15` classify as short, medium and long. -/
theorem c5_high_strides :
    strideFor .high .short = 3 ∧ strideFor .high .medium = 6 ∧
    strideFor .high .long = 6 ∧
    lengthClass (0.02 : ℚ) = .short ∧ lengthClass (0.07 : ℚ) = .medium ∧
    lengthClass (0.15 : ℚ) = .long := by
  refine ⟨rfl, rfl, rfl, ?_, ?_, ?_⟩
  · rw [lengthClass_short_iff]; norm_num
  · rw [lengthClass_medium_iff]; norm_num
  · rw [lengthClass_long_iff]; norm_num

/-- C6: if a bucket's population exceeds 30, exactly the strands at bucket
indices `0, N, 2N, …` are retained (`(retained)[j] = bucket[j * N]` for every
`j`); otherwise every strand of the bucket is retained. -/
theorem c6_bucket_retention {α : Type} (stride : Nat) (l : List α)
    (hs : 1 ≤ stride) :
    (30 < l.length →
      ∀ j, (retainBucket stride l).get? j = l.get? (j * stride)) ∧
    (l.length ≤ 30 → retainBucket stride l = l) := by
  constructor
  · intro h30 j
    unfold retainBucket
    rw [if_pos h30]
    exact sliceStep_get? stride hs l j
  · intro h30
    unfold retainBucket
    rw [if_neg (by omega)]

/-- C6 witness: stride 2 on a 31-element bucket. -/
theorem c6_bucket_retention_witness :
    1 ≤ 2 ∧
      ((30 < (List.range 31).length →
        ∀ j, (retainBucket 2 (List.range 31)).get? j = (List.range 31).get? (j * 2)) ∧
       ((List.range 31).length ≤ 30 → retainBucket 2 (List.range 31) = List.range 31)) :=
  ⟨by decide, c6_bucket_retention 2 (List.range 31) (by decide)⟩

/-- C3: each `length` paired with an extracted strand by
`_get_individual_hairs` is the Euclidean distance between the coordinates of
the strand's first recorded vertex and its second-to-last recorded vertex;
in particular a strand of exactly 2 recorded vertices gets length 0. -/
theorem c3_strand_length (nrm : Vec3 → ℝ) (hnrm : IsEuclideanNorm nrm)
    (coords : Nat → Vec3) (m : BM) (pr : List Nat × ℝ)
    (hpr : pr ∈ getIndividualHairs nrm coords m) :
    pr.2 = Real.sqrt
      ((((coords (pr.1.headD 0)).1 : ℝ) -
          ((coords (pr.1.getD (pr.1.length - 2) 0)).1 : ℝ)) ^ 2 +
        (((coords (pr.1.headD 0)).2.1 : ℝ) -
          ((coords (pr.1.getD (pr.1.length - 2) 0)).2.1 : ℝ)) ^ 2 +
        (((coords (pr.1.headD 0)).2.2 : ℝ) -
          ((coords (pr.1.getD (pr.1.length - 2) 0)).2.2 : ℝ)) ^ 2) ∧
    (pr.1.length = 2 → pr.2 = 0) := by
  have h2 := getHairsAux_snd nrm coords m.adj m.nverts (startVerts m) [] [] pr hpr
  have hmain : pr.2 = Real.sqrt
      ((((coords (pr.1.headD 0)).1 : ℝ) -
          ((coords (pr.1.getD (pr.1.length - 2) 0)).1 : ℝ)) ^ 2 +
        (((coords (pr.1.headD 0)).2.1 : ℝ) -
          ((coords (pr.1.getD (pr.1.length - 2) 0)).2.1 : ℝ)) ^ 2 +
        (((coords (pr.1.headD 0)).2.2 : ℝ) -
          ((coords (pr.1.getD (pr.1.length - 2) 0)).2.2 : ℝ)) ^ 2) := by
    rw [h2]
    unfold strandLength sub3
    rw [hnrm]
    push_cast
    ring_nf
  refine ⟨hmain, ?_⟩
  intro hlen
  rw [hmain]
  have hsame : pr.1.getD (pr.1.length - 2) 0 = pr.1.headD 0 := by
    rw [hlen]
    cases pr.1 with
    | nil => rfl
    | cons a l => rfl
  rw [hsame]
  simp

/-- C3 witness: on the two-vertex strand mesh the single extracted strand has
2 recorded vertices and length 0. -/
theorem c3_strand_length_witness :
    IsEuclideanNorm (fun a : Vec3 =>
      Real.sqrt ((a.1 : ℝ) ^ 2 + (a.2.1 : ℝ) ^ 2 + (a.2.2 : ℝ) ^ 2)) ∧
    (([0, 1], strandLength (fun a : Vec3 =>
        Real.sqrt ((a.1 : ℝ) ^ 2 + (a.2.1 : ℝ) ^ 2 + (a.2.2 : ℝ) ^ 2))
        (fun _ => v0) [0, 1]) ∈
      getIndividualHairs (fun a : Vec3 =>
        Real.sqrt ((a.1 : ℝ) ^ 2 + (a.2.1 : ℝ) ^ 2 + (a.2.2 : ℝ) ^ 2))
        (fun _ => v0) pathBM) ∧
    strandLength (fun a : Vec3 =>
      Real.sqrt ((a.1 : ℝ) ^ 2 + (a.2.1 : ℝ) ^ 2 + (a.2.2 : ℝ) ^ 2))
      (fun _ => v0) [0, 1] = 0 := by
  have hnrm : IsEuclideanNorm (fun a : Vec3 =>
      Real.sqrt ((a.1 : ℝ) ^ 2 + (a.2.1 : ℝ) ^ 2 + (a.2.2 : ℝ) ^ 2)) :=
    fun a => rfl
  have hmem : (([0, 1], strandLength (fun a : Vec3 =>
      Real.sqrt ((a.1 : ℝ) ^ 2 + (a.2.1 : ℝ) ^ 2 + (a.2.2 : ℝ) ^ 2))
      (fun _ => v0) [0, 1]) ∈
      getIndividualHairs (fun a : Vec3 =>
        Real.sqrt ((a.1 : ℝ) ^ 2 + (a.2.1 : ℝ) ^ 2 + (a.2.2 : ℝ) ^ 2))
        (fun _ => v0) pathBM) := by
    show _ ∈ [([0, 1], strandLength _ (fun _ => v0) [0, 1])]
    exact List.mem_singleton.mpr rfl
  exact ⟨hnrm, hmem,
    (c3_strand_length _ hnrm (fun _ => v0) pathBM _ hmem).2 rfl⟩

lemma randomChoice_mem {α : Type} {r : Nat} {l : List α} {a : α}
    (h : randomChoice r l = some a) : a ∈ l :=
  List.get?_mem h

/-- C7: the UV rectangle selected for a card always comes from the atlas
bucket matching the card's measured classification: the `long` table iff the
measured length exceeds `0.05` (else `short`), and within the chosen subzone
the `wide` list iff the measured width exceeds `0.02` for long cards or
`0.01` for short cards (else `narrow`) — for every outcome `r1`, `r2` of the
random source. -/
theorem c7_uv_zone_matching (nrm : Vec3 → ℚ) (atlas : Atlas) (vertLen : Nat)
    (hairVerts : List Vec3) (r1 r2 : Nat) (rect : Rect)
    (h : cardZone nrm atlas vertLen hairVerts r1 r2 = some rect) :
    (0.05 < cardLength nrm vertLen hairVerts →
      0.02 < cardWidth nrm hairVerts → ∃ sub ∈ atlas.long, rect ∈ sub.wide) ∧
    (0.05 < cardLength nrm vertLen hairVerts →
      cardWidth nrm hairVerts ≤ 0.02 → ∃ sub ∈ atlas.long, rect ∈ sub.narrow) ∧
    (cardLength nrm vertLen hairVerts ≤ 0.05 →
      0.01 < cardWidth nrm hairVerts → ∃ sub ∈ atlas.short, rect ∈ sub.wide) ∧
    (cardLength nrm vertLen hairVerts ≤ 0.05 →
      cardWidth nrm hairVerts ≤ 0.01 → ∃ sub ∈ atlas.short, rect ∈ sub.narrow) := by
  unfold cardZone chooseZone at h
  refine ⟨?_, ?_, ?_, ?_⟩
  · intro hl hw
    rw [if_pos (show (1 / 20 : ℚ) < cardLength nrm vertLen hairVerts by linarith)] at h
    cases hrc : randomChoice r1 atlas.long with
    | none => rw [hrc] at h; cases h
    | some sub =>
      rw [hrc] at h
      dsimp only at h
      rw [if_pos (show (1 / 50 : ℚ) < cardWidth nrm hairVerts by linarith)] at h
      exact ⟨sub, randomChoice_mem hrc, randomChoice_mem h⟩
  · intro hl hw
    rw [if_pos (show (1 / 20 : ℚ) < cardLength nrm vertLen hairVerts by linarith)] at h
    cases hrc : randomChoice r1 atlas.long with
    | none => rw [hrc] at h; cases h
    | some sub =>
      rw [hrc] at h
      dsimp only at h
      rw [if_neg (show ¬ (1 / 50 : ℚ) < cardWidth nrm hairVerts by
        rw [not_lt]; linarith)] at h
      exact ⟨sub, randomChoice_mem hrc, randomChoice_mem h⟩
  · intro hl hw
    rw [if_neg (show ¬ (1 / 20 : ℚ) < cardLength nrm vertLen hairVerts by
      rw [not_lt]; linarith)] at h
    cases hrc : randomChoice r1 atlas.short with
    | none => rw [hrc] at h; cases h
    | some sub =>
      rw [hrc] at h
      dsimp only at h
      rw [if_pos (show (1 / 100 : ℚ) < cardWidth nrm hairVerts by linarith)] at h
      exact ⟨sub, randomChoice_mem hrc, randomChoice_mem h⟩
  · intro hl hw
    rw [if_neg (show ¬ (1 / 20 : ℚ) < cardLength nrm vertLen hairVerts by
      rw [not_lt]; linarith)] at h
    cases hrc : randomChoice r1 atlas.short with
    | none => rw [hrc] at h; cases h
    | some sub =>
      rw [hrc] at h
      dsimp only at h
      rw [if_neg (show ¬ (1 / 100 : ℚ) < cardWidth nrm hairVerts by
        rw [not_lt]; linarith)] at h
      exact ⟨sub, randomChoice_mem hrc, randomChoice_mem h⟩

/-- C7 witness: a one-entry atlas, a constant measurement of `1`, and random
outcomes `0, 0` select a long/wide rectangle. -/
theorem c7_uv_zone_matching_witness :
    cardZone (fun _ => 1) ⟨[⟨[(((2 : ℚ), (2 : ℚ)), ((3 : ℚ), (3 : ℚ)))], []⟩],
        [⟨[], []⟩]⟩ 0 [((0 : ℚ), (0 : ℚ), (0 : ℚ))] 0 0 =
      some (((2 : ℚ), (2 : ℚ)), ((3 : ℚ), (3 : ℚ))) ∧
    (0.05 < cardLength (fun _ => 1) 0 [((0 : ℚ), (0 : ℚ), (0 : ℚ))] →
      0.02 < cardWidth (fun _ => 1) [((0 : ℚ), (0 : ℚ), (0 : ℚ))] →
      ∃ sub ∈ ([⟨[(((2 : ℚ), (2 : ℚ)), ((3 : ℚ), (3 : ℚ)))], []⟩] : List SubZone),
        (((2 : ℚ), (2 : ℚ)), ((3 : ℚ), (3 : ℚ))) ∈ sub.wide) :=
  ⟨by with_unfolding_all decide,
    (c7_uv_zone_matching (fun _ => 1)
      ⟨[⟨[(((2 : ℚ), (2 : ℚ)), ((3 : ℚ), (3 : ℚ)))], []⟩], [⟨[], []⟩]⟩ 0
      [((0 : ℚ), (0 : ℚ), (0 : ℚ))] 0 0 (((2 : ℚ), (2 : ℚ)), ((3 : ℚ), (3 : ℚ)))
      (by with_unfolding_all decide)).1⟩

lemma zeroBoundary_fold_black (m : CapMesh) (v : Nat) :
    ∀ (es : List (Nat × Nat)) (cols : Nat → Color),
      ((∃ e ∈ es, isBoundary m e = true ∧ (v = e.1 ∨ v = e.2)) ∨ cols v = black) →
      es.foldl (fun cs e =>
        if isBoundary m e then updateColor (updateColor cs e.1 black) e.2 black
        else cs) cols v = black := by
  intro es
  induction es with
  | nil =>
    intro cols h
    rcases h with ⟨e, he, _⟩ | hc
    · cases he
    · exact hc
  | cons e es ih =>
    intro cols h
    rw [List.foldl_cons]
    rcases h with ⟨e0, he0, hb, hv⟩ | hc
    · rcases List.mem_cons.mp he0 with rfl | he0tail
      · apply ih
        right
        rw [if_pos hb]
        unfold updateColor
        rcases hv with h1 | h2
        · by_cases hq : v = e0.2 <;> simp [hq, ← h1]
        · simp [← h2]
      · apply ih
        left
        exact ⟨e0, he0tail, hb, hv⟩
    · apply ih
      right
      by_cases hb : isBoundary m e
      · rw [if_pos hb]
        unfold updateColor
        by_cases h2 : v = e.2 <;> by_cases h1 : v = e.1 <;> simp [h1, h2, hc]
      · rw [if_neg hb]
        exact hc

/-- C8: after the haircap painting completes, every vertex incident to a
boundary edge of the haircap mesh carries the color `(0, 0, 0, 1)`, for every
initial per-vertex color assignment (hence for every density configuration
and aggregate value). -/
theorem c8_boundary_vertices_black (m : CapMesh) (cols : Nat → Color) (v : Nat)
    (h : ∃ e ∈ m.edges, isBoundary m e = true ∧ (v = e.1 ∨ v = e.2)) :
    zeroBoundary m cols v = black :=
  zeroBoundary_fold_black m v m.edges cols (Or.inl h)

/-- C8 witness: on a single-quad cap every edge is a boundary edge, and vertex
`0` of edge `(0, 1)` is painted black over an all-white initial coloring. -/
theorem c8_boundary_vertices_black_witness :
    (∃ e ∈ (CapMesh.mk [[0, 1, 2, 3]] [(0, 1), (1, 2), (2, 3), (3, 0)]).edges,
      isBoundary (CapMesh.mk [[0, 1, 2, 3]] [(0, 1), (1, 2), (2, 3), (3, 0)]) e = true ∧
        (0 = e.1 ∨ 0 = e.2)) ∧
    zeroBoundary (CapMesh.mk [[0, 1, 2, 3]] [(0, 1), (1, 2), (2, 3), (3, 0)])
      (fun _ => ((1 : ℚ), (1 : ℚ), (1 : ℚ), (1 : ℚ))) 0 = black :=
  ⟨⟨(0, 1), by with_unfolding_all decide⟩,
    c8_boundary_vertices_black _ _ 0 ⟨(0, 1), by with_unfolding_all decide⟩⟩

lemma vgAggregateRaw_eq_sum :
    ∀ (gs : List VG) (acc : Nat → ℚ) (i : Nat),
      (gs.foldl (fun acc vg => fun i => acc i + (vg i).getD 0) acc) i =
        acc i + (gs.map (fun g => (g i).getD 0)).sum := by
  intro gs
  induction gs with
  | nil => intro acc i; simp
  | cons g gs ih =>
    intro acc i
    rw [List.foldl_cons, ih, List.map_cons, List.sum_cons]
    ring

/-- C9: the haircap aggregate density at each body vertex is the sum of its
weights over the density vertex groups — an unassigned vertex contributing
weight `0` instead of an error — rounded to 4 decimals and then clamped to
`[0, 1]`; before boundary zeroing each haircap vertex is painted `(a, a, a, 1)`
with `a` the aggregate of its nearest body vertex; weights `0.3` and `0.4` in
two groups yield `0.7`. -/
theorem c9_aggregate_density (groups : List VG) (nearest : Nat → Nat) (i : Nat) :
    paintCapColors (vgAggregate groups) nearest i =
      (clip01 (round4 ((groups.map (fun g => (g (nearest i)).getD 0)).sum)),
       clip01 (round4 ((groups.map (fun g => (g (nearest i)).getD 0)).sum)),
       clip01 (round4 ((groups.map (fun g => (g (nearest i)).getD 0)).sum)), 1) ∧
    vgAggregate [fun _ => some 0.3, fun _ => some 0.4] 0 = 0.7 := by
  constructor
  · unfold paintCapColors vgAggregate vgAggregateRaw
    rw [vgAggregateRaw_eq_sum]
    norm_num
  · with_unfolding_all decide

/-- C1: for a group of `n` strands with simplified point count `k ≥ 2`, the
builder emits `2nk` flat-ribbon vertices plus `2nk` parallel-ribbon vertices
(`4k` per strand), so the assembled object has `4nk` vertices; the face
arrays hold `n` rows of `k − 1` four-vertex quads each, duplicated for the
two ribbons, so the assembled object has `2n(k − 1)` quad faces. -/
theorem c1_quad_strip_counts (nrm : Vec3 → ℚ) (k n : Nat)
    (coords normals perp : List (List Vec3)) (hk : 2 ≤ k)
    (hc : coords.length = n) (hcr : ∀ r ∈ coords, r.length = k)
    (hn : normals.length = n) (hnr : ∀ r ∈ normals, r.length = k)
    (hp : perp.length = n) (hpr : ∀ r ∈ perp, r.length = k) :
    (computeNewVerCoordinaes nrm k coords normals perp).1.length = 2 * n * k ∧
    (computeNewVerCoordinaes nrm k coords normals perp).2.length = 2 * n * k ∧
    (assembleHairMesh nrm k coords normals perp).1.length = 4 * n * k ∧
    (computeNewFaceVertIdxs k n).length = n ∧
    (∀ row ∈ computeNewFaceVertIdxs k n, row.length = k - 1) ∧
    (assembleHairMesh nrm k coords normals perp).2.length = 2 * n * (k - 1) := by
  have hv := computeNewVerCoordinaes_length nrm k n (by omega) coords normals perp
    hc hcr hn hnr hp hpr
  have hf := computeNewFaceVertIdxs_shape k n
  have hfc := computeNewFaceVertIdxs_shape k coords.length
  refine ⟨hv.1, hv.2, ?_, hf.1, hf.2, ?_⟩
  · unfold assembleHairMesh
    rw [List.length_append, hv.1, hv.2]
    ring
  · unfold assembleHairMesh
    rw [List.length_append]
    rw [flatten_length_const _ (k - 1) hfc.2, hfc.1]
    rw [flatten_length_const _ (k - 1) (by
      intro r hr
      obtain ⟨row, hrow, rfl⟩ := List.mem_map.mp hr
      rw [List.length_map]
      exact hfc.2 row hrow), List.length_map, hfc.1, hc]
    ring

/-- C1 witness: one strand with two simplified points gives 8 vertices and
2 quads. -/
theorem c1_quad_strip_counts_witness :
    2 ≤ 2 ∧
      ((computeNewVerCoordinaes (fun _ => 0) 2 [[v0, v0]] [[v0, v0]] [[v0, v0]]).1.length
          = 2 * 1 * 2 ∧
        (computeNewVerCoordinaes (fun _ => 0) 2 [[v0, v0]] [[v0, v0]] [[v0, v0]]).2.length
          = 2 * 1 * 2 ∧
        (assembleHairMesh (fun _ => 0) 2 [[v0, v0]] [[v0, v0]] [[v0, v0]]).1.length
          = 4 * 1 * 2 ∧
        (computeNewFaceVertIdxs 2 1).length = 1 ∧
        (∀ row ∈ computeNewFaceVertIdxs 2 1, row.length = 2 - 1) ∧
        (assembleHairMesh (fun _ => 0) 2 [[v0, v0]] [[v0, v0]] [[v0, v0]]).2.length
          = 2 * 1 * (2 - 1)) :=
  ⟨by decide,
    c1_quad_strip_counts (fun _ => 0) 2 1 [[v0, v0]] [[v0, v0]] [[v0, v0]]
      (by decide) (by decide)
      (by intro r hr; rw [List.mem_singleton] at hr; subst hr; rfl)
      (by decide)
      (by intro r hr; rw [List.mem_singleton] at hr; subst hr; rfl)
      (by decide)
      (by intro r hr; rw [List.mem_singleton] at hr; subst hr; rfl)⟩

lemma quad_index_bounds (i j k n : Nat) (hi : i < n) (hj : j < k - 1) :
    i * k * 2 + j < 2 * n * k ∧ i * k * 2 + j + 1 < 2 * n * k ∧
    i * k * 2 + k * 2 - j - 2 < 2 * n * k ∧
    i * k * 2 + k * 2 - j - 1 < 2 * n * k := by
  have h1 : i + 1 ≤ n := hi
  have hmul : (i + 1) * (k * 2) ≤ n * (k * 2) := Nat.mul_le_mul_right (k * 2) h1
  have e1 : (i + 1) * (k * 2) = i * k * 2 + k * 2 := by ring
  have e2 : n * (k * 2) = 2 * n * k := by ring
  rw [e1, e2] at hmul
  revert hmul hj
  generalize i * k * 2 = a
  generalize 2 * n * k = b
  intro hj hmul
  omega

/-- C10: every vertex index in the emitted face arrays is in bounds — each
index of the per-strand quads lies in `[0, 2nk)`, and after offsetting the
parallel-ribbon copy by the `2nk` flat-ribbon vertices, every index of the
assembled face array lies in `[0, 4nk)`. -/
theorem c10_face_indices_in_bounds (nrm : Vec3 → ℚ) (k n : Nat)
    (coords normals perp : List (List Vec3)) (hk : 2 ≤ k)
    (hc : coords.length = n) (hcr : ∀ r ∈ coords, r.length = k)
    (hn : normals.length = n) (hnr : ∀ r ∈ normals, r.length = k)
    (hp : perp.length = n) (hpr : ∀ r ∈ perp, r.length = k) :
    (∀ row ∈ computeNewFaceVertIdxs k n, ∀ q ∈ row,
      q.1 < 2 * n * k ∧ q.2.1 < 2 * n * k ∧ q.2.2.1 < 2 * n * k ∧
        q.2.2.2 < 2 * n * k) ∧
    (∀ q ∈ (assembleHairMesh nrm k coords normals perp).2,
      q.1 < 4 * n * k ∧ q.2.1 < 4 * n * k ∧ q.2.2.1 < 4 * n * k ∧
        q.2.2.2 < 4 * n * k) := by
  have hbound : ∀ row ∈ computeNewFaceVertIdxs k n, ∀ q ∈ row,
      q.1 < 2 * n * k ∧ q.2.1 < 2 * n * k ∧ q.2.2.1 < 2 * n * k ∧
        q.2.2.2 < 2 * n * k := by
    intro row hrow q hq
    unfold computeNewFaceVertIdxs at hrow
    obtain ⟨i, hi, rfl⟩ := List.mem_map.mp hrow
    obtain ⟨j, hj, rfl⟩ := List.mem_map.mp hq
    rw [List.mem_range] at hi hj
    have hb := quad_index_bounds i j k n hi hj
    dsimp only
    exact ⟨hb.1, hb.2.1, hb.2.2.1, hb.2.2.2⟩
  refine ⟨hbound, ?_⟩
  intro q hq
  have hv := computeNewVerCoordinaes_length nrm k n (by omega) coords normals perp
    hc hcr hn hnr hp hpr
  unfold assembleHairMesh at hq
  rw [List.mem_append] at hq
  have hbc : ∀ row ∈ computeNewFaceVertIdxs k coords.length, ∀ q ∈ row,
      q.1 < 2 * n * k ∧ q.2.1 < 2 * n * k ∧ q.2.2.1 < 2 * n * k ∧
        q.2.2.2 < 2 * n * k := by
    rw [hc]; exact hbound
  have hle : 2 * n * k ≤ 4 * n * k :=
    Nat.mul_le_mul_right k (by omega : 2 * n ≤ 4 * n)
  have hsum : 2 * n * k + 2 * n * k = 4 * n * k := by ring
  rcases hq with hq1 | hq2
  · obtain ⟨row, hrow, hqrow⟩ := List.mem_flatten.mp hq1
    have hb := hbc row hrow q hqrow
    exact ⟨lt_of_lt_of_le hb.1 hle, lt_of_lt_of_le hb.2.1 hle,
      lt_of_lt_of_le hb.2.2.1 hle, lt_of_lt_of_le hb.2.2.2 hle⟩
  · obtain ⟨row, hrowm, hqrow⟩ := List.mem_flatten.mp hq2
    obtain ⟨row0, hrow0, rfl⟩ := List.mem_map.mp hrowm
    obtain ⟨q0, hq0, rfl⟩ := List.mem_map.mp hqrow
    have hb := hbc row0 hrow0 q0 hq0
    have hoff : (computeNewVerCoordinaes nrm k coords normals perp).1.length
        = 2 * n * k := hv.1
    unfold offsetQuad
    dsimp only
    rw [hoff, ← hsum]
    exact ⟨Nat.add_lt_add_right hb.1 _, Nat.add_lt_add_right hb.2.1 _,
      Nat.add_lt_add_right hb.2.2.1 _, Nat.add_lt_add_right hb.2.2.2 _⟩

/-- C10 witness: the single-strand, two-point instance has all face indices
within bounds. -/
theorem c10_face_indices_in_bounds_witness :
    2 ≤ 2 ∧
      (∀ q ∈ (assembleHairMesh (fun _ => 0) 2 [[v0, v0]] [[v0, v0]] [[v0, v0]]).2,
        q.1 < 4 * 1 * 2 ∧ q.2.1 < 4 * 1 * 2 ∧ q.2.2.1 < 4 * 1 * 2 ∧
          q.2.2.2 < 4 * 1 * 2) :=
  ⟨by decide,
    (c10_face_indices_in_bounds (fun _ => 0) 2 1 [[v0, v0]] [[v0, v0]] [[v0, v0]]
      (by decide) (by decide)
      (by intro r hr; rw [List.mem_singleton] at hr; subst hr; rfl)
      (by decide)
      (by intro r hr; rw [List.mem_singleton] at hr; subst hr; rfl)
      (by decide)
      (by intro r hr; rw [List.mem_singleton] at hr; subst hr; rfl)).2⟩

end HairCards
